import Mathlib

/-!
Verification of the ghsync repository backup tool.

This file gives a shallow embedding of the core of ghsync (a Rust CLI that
discovers GitHub repositories and clones or updates them in parallel) and
proves properties of that embedding.  The embedding follows the source files:

- src/github.rs : the glob matcher (`glob_match`, `glob_match_bytes`), the
  external-command wrapper (`run_cmd`, embedded here as `runCommand` because
  the source name collides with a Lean keyword), and the discovery /
  filter pipeline (`discover_repos`).
- src/backup.rs : per-target backup (`backup_repo`), the concurrent
  scheduler of `run_backup` (embedded as a small-step transition system
  `SchedStep` over scheduler states), and the final summary / exit logic.
- src/cli.rs : the top-level control flow (`run`, embedded as `cliRun`),
  parameterised by the external collaborators (gh authentication, user and
  organisation discovery, repository listing).

Modelling conventions: strings are modelled at Unicode-scalar granularity
(`List Char` stands for the byte slices of the Rust code; all inputs of
interest are ASCII, where the two coincide).  Filesystem state and external
processes are modelled by an explicit environment `Env` giving the
destination-path existence predicate and the outcome of each executed
command.  The scheduler's worker threads, atomic claim cursor and
mutex-guarded result log are modelled by the transition relation
`SchedStep`: a `claim` step is one atomic fetch-and-increment, a `record`
step is one lock-guarded append of a finished job's outcome, and an `exit`
step is a worker observing an exhausted cursor and terminating.  Arbitrary
interleavings of these steps over-approximate every real execution of the
thread pool.
-/

namespace Ghsync

/-- Job status, from `Status` in src/backup.rs. -/
inductive Status where
  | Cloned
  | Updated
  | Failed
deriving DecidableEq

/-- Per-target outcome, from `BackupResult` in src/backup.rs. -/
structure BackupResult where
  nwo : String
  status : Status
  error : Option String
deriving DecidableEq

/-- Repository record, from `Repo` in src/github.rs. -/
structure Repo where
  name_with_owner : String
  ssh_url : String
  is_fork : Bool
  is_archived : Bool
  visibility : String
deriving DecidableEq

instance : Inhabited Repo := ⟨⟨"", "", false, false, ""⟩⟩

/-- Filter configuration, from `Filters` in src/github.rs. -/
structure Filters where
  org : List String
  orgs_only : Bool
  personal_only : Bool
  no_forks : Bool
  forks_only : Bool
  no_archived : Bool
  archived_only : Bool
  visibility : Option String
  patterns : List String
  exclude : List String
deriving DecidableEq

/-- Rust `Vec::join(sep)` on strings. -/
def joinSep (sep : String) : List String → String
  | [] => ""
  | [x] => x
  | x :: xs => x ++ sep ++ joinSep sep xs

/-- Rust `str::trim` on a character list. -/
def trimChars (l : List Char) : List Char :=
  ((l.dropWhile Char.isWhitespace).reverse.dropWhile Char.isWhitespace).reverse

/-- Rust `str::trim`. -/
def rustTrim (s : String) : String :=
  (trimChars s.toList).asString

/-- Split a character list at every newline (like `String::split`). -/
def splitLines : List Char → List (List Char)
  | [] => [[]]
  | c :: rest =>
    if c = '\n' then [] :: splitLines rest
    else
      match splitLines rest with
      | [] => [[c]]
      | l :: ls => (c :: l) :: ls

/-- Rust `str::lines`: no line for the empty string, and a trailing newline
does not open a final empty line.  (The CRLF special case of Rust is not
modelled; no diagnostic text in this program carries carriage returns.) -/
def rust_lines (s : String) : List String :=
  match s.toList with
  | [] => []
  | l =>
    let core := if l.getLast? = some '\n' then l.dropLast else l
    (splitLines core).map List.asString

/-- Rust `str::split_once` on a character list: split at the first
occurrence of `sep`, or `none` when `sep` does not occur. -/
def split_once_chars (sep : Char) : List Char → Option (List Char × List Char)
  | [] => none
  | c :: rest =>
    if c = sep then some ([], rest)
    else
      match split_once_chars sep rest with
      | none => none
      | some (a, b) => some (c :: a, b)

/-- Rust `str::split_once`, used in src/backup.rs line 31 and
src/github.rs lines 162 and 169. -/
def split_once (s : String) (sep : Char) : Option (String × String) :=
  (split_once_chars sep s.toList).map fun ab => (ab.1.asString, ab.2.asString)

/-- Rust `u8::to_ascii_lowercase`. -/
def asciiLower (c : Char) : Char :=
  if 'A' ≤ c ∧ c ≤ 'Z' then Char.ofNat (c.toNat + 32) else c

/-- Rust `str::eq_ignore_ascii_case`, used for owner and visibility
comparison in src/github.rs. -/
def eqIgnoreAsciiCase (a b : String) : Bool :=
  a.toList.map asciiLower = b.toList.map asciiLower

/-- The glob matcher of src/github.rs lines 187-197 (`glob_match_bytes`).
The Rust match arms are transliterated one for one; the `*` arm
`glob(&p[1..], t) || (!t.is_empty() && glob(p, &t[1..]))` unfolds to trying
the remaining pattern against every suffix of the text, which is expressed
here via `List.tails` so that the definition is structurally recursive on
the pattern (the source recursion is recovered as `glob_star_eq` below). -/
def glob_match_bytes : List Char → List Char → Bool
  | [], [] => true
  | '*' :: p, t => t.tails.any fun suf => glob_match_bytes p suf
  | '?' :: p, _ :: t => glob_match_bytes p t
  | a :: p, b :: t => a == b && glob_match_bytes p t
  | _, _ => false

/-- src/github.rs lines 183-185: lowercase both inputs, then match. -/
def glob_match (pattern text : String) : Bool :=
  glob_match_bytes (pattern.toList.map Char.toLower) (text.toList.map Char.toLower)

/-- Fuel-indexed transcription of the recursion of `glob_match_bytes`
exactly as written in src/github.rs (including the short-circuit `||` of
the `*` arm), returning `none` when the fuel runs out.  Used to state that
the source recursion terminates on every input. -/
def glob_match_fuel : Nat → List Char → List Char → Option Bool
  | 0, _, _ => none
  | _ + 1, [], [] => some true
  | n + 1, '*' :: p, t =>
      match glob_match_fuel n p t with
      | none => none
      | some true => some true
      | some false =>
          match t with
          | [] => some false
          | _ :: t' => glob_match_fuel n ('*' :: p) t'
  | n + 1, '?' :: p, _ :: t => glob_match_fuel n p t
  | n + 1, a :: p, b :: t =>
      if a == b then glob_match_fuel n p t else some false
  | _ + 1, _, _ => some false

/-- Declarative token semantics of the specification: `*` matches zero or
more characters, `?` matches exactly one character, and any other character
matches only itself.  Written from the specification text, to be compared
with the matcher of the source. -/
inductive GMatch : List Char → List Char → Prop where
  | nil : GMatch [] []
  | star {p : List Char} (t₁ t₂ : List Char) :
      GMatch p t₂ → GMatch ('*' :: p) (t₁ ++ t₂)
  | one {p : List Char} {c : Char} {t : List Char} :
      GMatch p t → GMatch ('?' :: p) (c :: t)
  | lit {p : List Char} {c : Char} {t : List Char} :
      c ≠ '*' → c ≠ '?' → GMatch p t → GMatch (c :: p) (c :: t)

/-- Result of spawning one external command: `none` models a spawn failure,
`some` carries the exit status and the captured output streams. -/
structure ExecOutcome where
  success : Bool
  stdout : String
  stderr : String
deriving DecidableEq

/-- Environment of one backup pass: which destination paths exist on disk,
and what each executed command returns.  Paths are component lists. -/
structure Env where
  pathExists : List String → Bool
  exec : List String → Option ExecOutcome

/-- The failure message built by `run_cmd` in src/github.rs line 41:
a header naming the joined command, a newline, then the trimmed captured
standard error. -/
def cmdFailedMsg (cmd : List String) (stderr : String) : String :=
  "command failed: " ++ joinSep " " cmd ++ "\n" ++ rustTrim stderr

/-- The command wrapper `run_cmd` of src/github.rs lines 33-45 (renamed,
since its Rust name is a Lean keyword): spawn failure yields the anyhow
context message, nonzero exit yields `cmdFailedMsg`, success yields the
trimmed standard output. -/
def runCommand (exec : List String → Option ExecOutcome) (cmd : List String) :
    Except String String :=
  match exec cmd with
  | none => .error ("failed to execute: " ++ cmd.headD "")
  | some o =>
    if o.success then .ok (rustTrim o.stdout)
    else .error (cmdFailedMsg cmd o.stderr)

/-- Destination path of one repository, src/backup.rs lines 31-32:
`dest.join(owner).join(name)` with `split_once('/').unwrap_or(("", nwo))`. -/
def repo_dir (repo : Repo) (dest : List String) : List String :=
  let ow := (split_once repo.name_with_owner '/').getD ("", repo.name_with_owner)
  dest ++ [ow.1, ow.2]

/-- Path rendering (`Path::display`), with `/` separators. -/
def pathDisplay (p : List String) : String := joinSep "/" p

/-- The update command of src/backup.rs lines 36-40. -/
def update_cmd (repo_dir_str : String) (mirror : Bool) : List String :=
  if mirror then ["git", "-C", repo_dir_str, "remote", "update"]
  else ["git", "-C", repo_dir_str, "fetch", "--all"]

/-- The clone command of src/backup.rs lines 48-58. -/
def clone_cmd (nwo repo_dir_str : String) (mirror : Bool) : List String :=
  ["gh", "repo", "clone", nwo, repo_dir_str, "--"] ++
    (if mirror then ["--mirror"] else [])

/-- The external command `backup_repo` issues for a given target: update
when the destination exists, clone otherwise. -/
def backupCmd (env : Env) (repo : Repo) (dest : List String) (mirror : Bool) :
    List String :=
  if env.pathExists (repo_dir repo dest) then
    update_cmd (pathDisplay (repo_dir repo dest)) mirror
  else
    clone_cmd repo.name_with_owner (pathDisplay (repo_dir repo dest)) mirror

/-- Per-target backup, src/backup.rs lines 29-76.  The ignored
`create_dir_all(parent)` side effect of the clone branch has no observable
output and is not modelled. -/
def backup_repo (env : Env) (repo : Repo) (dest : List String) (mirror : Bool) :
    BackupResult :=
  let nwo := repo.name_with_owner
  let result : Except String Status :=
    if env.pathExists (repo_dir repo dest) then
      (runCommand env.exec (update_cmd (pathDisplay (repo_dir repo dest)) mirror)).map
        fun _ => Status.Updated
    else
      (runCommand env.exec (clone_cmd nwo (pathDisplay (repo_dir repo dest)) mirror)).map
        fun _ => Status.Cloned
  match result with
  | .ok st => { nwo := nwo, status := st, error := none }
  | .error e => { nwo := nwo, status := .Failed, error := some e }

/-- The user-visible progress report for one result, src/backup.rs lines
110-115: the qualified identifier, and for a failed job the first line of
the recorded error text. -/
def reportPair (r : BackupResult) : String × Option String :=
  (r.nwo, r.error.bind fun e => (rust_lines e).head?)

/-- Status count of the summary, src/backup.rs lines 122-133. -/
def countStatus (rs : List BackupResult) (st : Status) : Nat :=
  (rs.filter fun r => decide (r.status = st)).length

/-- Terminal status of `run_backup`, src/backup.rs lines 140-148: the
process exits 1 when the failed list is nonempty, and the `Ok(())` return
otherwise reaches `main` as exit status 0. -/
def run_backup_exitCode (rs : List BackupResult) : Nat :=
  if !(rs.filter fun r => decide (r.status = .Failed)).isEmpty then 1 else 0

/-- Worker thread phase in the scheduler of src/backup.rs lines 99-119:
about to claim an index, holding a claimed index while the job runs, or
terminated. -/
inductive WPhase where
  | running
  | claimed (idx : Nat)
  | done
deriving DecidableEq

/-- Scheduler state: the atomic claim cursor `next_idx`, the mutex-guarded
result log (kept as the claimed indices in completion order; the outcome of
index `i` is the deterministic `backup_repo` value for target `i`), and the
phase of every worker. -/
structure Sched where
  nextIdx : Nat
  log : List Nat
  workers : List WPhase
deriving DecidableEq

/-- Initial scheduler state: cursor 0, empty log, `jobs` idle workers. -/
def initSched (jobs : Nat) : Sched :=
  { nextIdx := 0, log := [], workers := List.replicate jobs .running }

/-- One atomic step of the scheduler of src/backup.rs lines 99-119.
`claim` is `next_idx.fetch_add(1)` observing a value below the target
count; `exit` is the same fetch-and-increment observing an exhausted
cursor, after which the worker breaks out of its loop; `record` is the
lock-guarded append of a finished job's outcome. -/
inductive SchedStep (total : Nat) : Sched → Sched → Prop where
  | claim {s : Sched} {w : Nat}
      (hw : s.workers[w]? = some .running) (h : s.nextIdx < total) :
      SchedStep total s
        { nextIdx := s.nextIdx + 1, log := s.log,
          workers := s.workers.set w (.claimed s.nextIdx) }
  | exit {s : Sched} {w : Nat}
      (hw : s.workers[w]? = some .running) (h : total ≤ s.nextIdx) :
      SchedStep total s
        { nextIdx := s.nextIdx + 1, log := s.log,
          workers := s.workers.set w .done }
  | record {s : Sched} {w k : Nat}
      (hw : s.workers[w]? = some (.claimed k)) :
      SchedStep total s
        { nextIdx := s.nextIdx, log := s.log ++ [k],
          workers := s.workers.set w .running }

/-- Any interleaving of scheduler steps. -/
def SchedSteps (total : Nat) : Sched → Sched → Prop :=
  Relation.ReflTransGen (SchedStep total)

/-- All workers have terminated; `thread::scope` joins exactly here. -/
def Sched.allDone (s : Sched) : Prop :=
  ∀ w ∈ s.workers, w = .done

/-- Index held by a worker, if any. -/
def claimedOf : WPhase → Option Nat
  | .claimed k => some k
  | _ => none

/-- Indices currently held by in-flight workers. -/
def claimedList (ws : List WPhase) : List Nat :=
  ws.filterMap claimedOf

/-- Worker termination test. -/
def isDone : WPhase → Bool
  | .done => true
  | _ => false

/-- Number of terminated workers. -/
def doneCount (ws : List WPhase) : Nat :=
  ws.countP isDone

/-- Scheduler invariant: the worker count is constant, the recorded and
in-flight indices are exactly the claimed prefix `0 .. min nextIdx total`
of the cursor with no duplication, and every cursor increment beyond
`total` corresponds to exactly one terminated worker. -/
def Inv (total jobs : Nat) (s : Sched) : Prop :=
  s.workers.length = jobs ∧
  ((s.log ++ claimedList s.workers : List Nat) : Multiset Nat) =
    (List.range (min s.nextIdx total) : List Nat) ∧
  s.nextIdx = min s.nextIdx total + doneCount s.workers

/-- Outcome of the job claiming index `i`: `backup_repo` applied to the
`i`-th target, as in src/backup.rs line 106. -/
def jobOutcome (env : Env) (repos : List Repo) (dest : List String)
    (mirror : Bool) (i : Nat) : BackupResult :=
  backup_repo env (repos.getD i default) dest mirror

/-- Owners of `filters.org` that match no known organisation
(case-insensitively), src/github.rs lines 85-89. -/
def invalidOwners (given orgs : List String) : List String :=
  given.filter fun o => !(orgs.any fun x => eqIgnoreAsciiCase x o)

/-- The unknown-owner error message of src/github.rs lines 93-97. -/
def notMemberMsg (invalid orgs : List String) : String :=
  "not a member of org(s): " ++ joinSep ", " invalid ++
    "\nYour orgs: " ++ joinSep ", " orgs

/-- Owner-set resolution of src/github.rs lines 84-111. -/
def resolveOwners (filters : Filters) (username : String) (orgs : List String) :
    Except String (List String) :=
  if !filters.org.isEmpty then
    if !(invalidOwners filters.org orgs).isEmpty then
      .error (notMemberMsg (invalidOwners filters.org orgs) orgs)
    else
      .ok (orgs.filter fun o => filters.org.any fun x => eqIgnoreAsciiCase x o)
  else if filters.orgs_only then
    .ok orgs
  else if filters.personal_only then
    .ok [username]
  else
    .ok (username :: orgs)

/-- The `seen.entry(key).or_insert(repo)` of src/github.rs lines 123-124:
keep an existing entry for the key, otherwise add the new record.  The
`HashMap` is modelled as an association list in insertion order (the map's
iteration order is unspecified in Rust; the final pipeline output is sorted
anyway, and the remaining claims only concern the set of entries). -/
def insertRepo (seen : List (String × Repo)) (r : Repo) : List (String × Repo) :=
  if seen.any fun p => p.1 == r.name_with_owner then seen
  else seen ++ [(r.name_with_owner, r)]

/-- The owner loop of src/github.rs lines 119-126: fetch each owner's
repositories in order (propagating a listing failure unchanged) and merge
them into the seen map, first record per key winning. -/
def scanOwners (list_repos : String → Except String (List Repo)) :
    List String → List (String × Repo) → Except String (List (String × Repo))
  | [], seen => .ok seen
  | o :: rest, seen =>
    match list_repos o with
    | .error e => .error e
    | .ok repos => scanOwners list_repos rest (repos.foldl insertRepo seen)

/-- First-seen-wins deduplication of a flat record list. -/
def dedupFirst (rs : List Repo) : List (String × Repo) :=
  rs.foldl insertRepo []

/-- Lookup in the seen map by qualified identifier. -/
def lookupRepo (seen : List (String × Repo)) (k : String) : Option Repo :=
  (seen.find? fun p => p.1 == k).map Prod.snd

/-- Bare repository name used by the glob stages, src/github.rs lines 162
and 169: the part after the first `/`, or the empty string when there is no
separator. -/
def bare_name (nwo : String) : String :=
  ((split_once nwo '/').map Prod.snd).getD ""

/-- Include-glob stage of src/github.rs lines 160-165. -/
def includeStage (patterns : List String) (repos : List Repo) : List Repo :=
  if patterns.isEmpty then repos
  else repos.filter fun r => patterns.any fun p => glob_match p (bare_name r.name_with_owner)

/-- Exclude-glob stage of src/github.rs lines 167-172. -/
def excludeStage (excl : List String) (repos : List Repo) : List Repo :=
  if excl.isEmpty then repos
  else repos.filter fun r => !(excl.any fun p => glob_match p (bare_name r.name_with_owner))

/-- Lowercased qualified identifier, the sort key of src/github.rs
lines 174-178. -/
def lowerName (r : Repo) : String :=
  (r.name_with_owner.toList.map Char.toLower).asString

/-- Stable insertion into a sorted list (placing the new element before the
first not-smaller element, so earlier elements of the original list stay in
front of equal later ones, as with Rust's stable `sort_by`). -/
def insertSorted (r : Repo) : List Repo → List Repo
  | [] => [r]
  | x :: xs => if lowerName r ≤ lowerName x then r :: x :: xs else x :: insertSorted r xs

/-- Stable sort by lowercased qualified identifier, src/github.rs
lines 174-178. -/
def sortRepos : List Repo → List Repo
  | [] => []
  | r :: rs => insertSorted r (sortRepos rs)

/-- The discovery pipeline `discover_repos` of src/github.rs lines 83-181,
parameterised by the repository-listing collaborator `list_repos` (an
external service in the source).  The observability `println!` calls have
no bearing on the returned value and are not modelled. -/
def discover_repos (filters : Filters) (username : String) (orgs : List String)
    (list_repos : String → Except String (List Repo)) : Except String (List Repo) :=
  match resolveOwners filters username orgs with
  | .error e => .error e
  | .ok owners =>
    match scanOwners list_repos owners [] with
    | .error e => .error e
    | .ok seen =>
      let repos := seen.map Prod.snd
      let repos := if filters.no_forks then repos.filter (fun r => !r.is_fork) else repos
      let repos := if filters.forks_only then repos.filter (fun r => r.is_fork) else repos
      let repos := if filters.no_archived then repos.filter (fun r => !r.is_archived) else repos
      let repos := if filters.archived_only then repos.filter (fun r => r.is_archived) else repos
      let repos :=
        match filters.visibility with
        | some vis => repos.filter fun r => eqIgnoreAsciiCase r.visibility vis
        | none => repos
      let repos := includeStage filters.patterns repos
      let repos := excludeStage filters.exclude repos
      .ok (sortRepos repos)

/-- Parsed command-line arguments, from `Cli` in src/cli.rs. -/
structure CliArgs where
  org : List String
  orgs_only : Bool
  personal_only : Bool
  list_orgs : Bool
  no_forks : Bool
  forks_only : Bool
  no_archived : Bool
  archived_only : Bool
  visibility : Option String
  patterns : List String
  exclude : List String
  dest : List String
  no_mirror : Bool
  jobs : Nat
  dry_run : Bool
deriving DecidableEq

/-- External collaborators used by src/cli.rs: `check_gh`, `get_username`,
`get_orgs` and `list_repos` from src/github.rs. -/
structure Collab where
  check_gh : Except String Unit
  get_username : Except String String
  get_orgs : Except String (List String)
  list_repos : String → Except String (List Repo)

/-- Terminal action of one `run` invocation of src/cli.rs: which of the
four return paths is taken, with the data that path consumes.  Invoking the
backup scheduler (and hence creating the destination directory and running
jobs) happens only on the `backup` path. -/
inductive CliResult where
  | listedOrgs (orgs : List String)
  | noRepos
  | dryRun (repos : List Repo)
  | backup (repos : List Repo) (dest : List String) (mirror : Bool) (jobs : Nat)
deriving DecidableEq

/-- The `Filters` value built in src/cli.rs lines 104-115. -/
def mkFilters (args : CliArgs) : Filters :=
  { org := args.org, orgs_only := args.orgs_only, personal_only := args.personal_only,
    no_forks := args.no_forks, forks_only := args.forks_only,
    no_archived := args.no_archived, archived_only := args.archived_only,
    visibility := args.visibility, patterns := args.patterns, exclude := args.exclude }

/-- The control flow of `run` in src/cli.rs lines 84-153.  (In the
`list_orgs` branch the source also queries each organisation's repository
count before returning; that printing-only traversal is not modelled.) -/
def cliRun (args : CliArgs) (c : Collab) : Except String CliResult := do
  let _ ← c.check_gh
  let username ← c.get_username
  let orgs ← c.get_orgs
  if args.list_orgs then
    return .listedOrgs orgs
  match discover_repos (mkFilters args) username orgs c.list_repos with
  | .error e => .error e
  | .ok repos =>
    if repos.isEmpty then
      return .noRepos
    else if args.dry_run then
      return .dryRun repos
    else
      return .backup repos args.dest (!args.no_mirror) args.jobs

/-- Process exit status as decided by `main` in src/main.rs: 0 on `Ok`,
1 on `Err`. -/
def mainExitCode : Except String CliResult → Nat
  | .ok _ => 0
  | .error _ => 1

/-- Concrete repository used in witness instantiations. -/
def repoW : Repo :=
  { name_with_owner := "o/r", ssh_url := "git@github.com:o/r.git",
    is_fork := false, is_archived := false, visibility := "public" }

/-- Environment in which no destination exists and every command succeeds. -/
def envW : Env :=
  { pathExists := fun _ => false,
    exec := fun _ => some { success := true, stdout := "", stderr := "" } }

/-- Environment in which no destination exists and every command fails with
a two-line standard-error text. -/
def envC5 : Env :=
  { pathExists := fun _ => false,
    exec := fun _ => some { success := false, stdout := "",
                            stderr := "fatal: boom\nmore detail" } }

/-- Filter set naming one unknown owner, for witness instantiation. -/
def filtersC6 : Filters :=
  { org := ["X"], orgs_only := false, personal_only := false,
    no_forks := false, forks_only := false, no_archived := false,
    archived_only := false, visibility := none, patterns := [], exclude := [] }

/-- Two repository records sharing a qualified identifier but differing in
the secondary field, for the deduplication witness. -/
def r1W : Repo :=
  { name_with_owner := "x/q", ssh_url := "from-alpha",
    is_fork := false, is_archived := false, visibility := "public" }

/-- Second record with the same identifier as `r1W`. -/
def r2W : Repo :=
  { name_with_owner := "x/q", ssh_url := "from-beta",
    is_fork := true, is_archived := true, visibility := "private" }

/-- Mock per-owner listings for the deduplication witness. -/
def fW : String → List Repo :=
  fun o => if o = "alpha" then [r1W] else [r2W]

/-- Mock listing collaborator for the deduplication witness. -/
def lrW : String → Except String (List Repo) :=
  fun o => .ok (fW o)

/-- Repository whose qualified identifier has no owner separator. -/
def rW9 : Repo :=
  { name_with_owner := "norepo", ssh_url := "u",
    is_fork := false, is_archived := false, visibility := "public" }

/-- Default-like argument set with empty scopes and filters. -/
def emptyArgs : CliArgs :=
  { org := [], orgs_only := false, personal_only := false, list_orgs := false,
    no_forks := false, forks_only := false, no_archived := false, archived_only := false,
    visibility := none, patterns := [], exclude := [], dest := ["backup"],
    no_mirror := false, jobs := 4, dry_run := false }

/-- Collaborators reporting a user with no organisations and no
repositories. -/
def emptyCollab : Collab :=
  { check_gh := .ok (), get_username := .ok "u", get_orgs := .ok [],
    list_repos := fun _ => .ok [] }

lemma glob_q_cons (p : List Char) (b : Char) (t : List Char) :
    glob_match_bytes ('?' :: p) (b :: t) = glob_match_bytes p t := rfl

lemma glob_nil_cons (b : Char) (t : List Char) :
    glob_match_bytes [] (b :: t) = false := rfl

/-- The match of `glob_match_bytes` at a leading `*` satisfies exactly the
recurrence written in src/github.rs line 191. -/
lemma glob_star_eq (p t : List Char) :
    glob_match_bytes ('*' :: p) t =
      (glob_match_bytes p t || (!t.isEmpty && glob_match_bytes ('*' :: p) t.tail)) := by
  cases t <;> simp [glob_match_bytes, List.tails]

lemma glob_lit_cons {a : Char} (p : List Char) (b : Char) (t : List Char)
    (h1 : a ≠ '*') (h2 : a ≠ '?') :
    glob_match_bytes (a :: p) (b :: t) = (a == b && glob_match_bytes p t) := by
  simp [glob_match_bytes, h1, h2]

lemma glob_lit_nil {a : Char} (p : List Char) (h1 : a ≠ '*') :
    glob_match_bytes (a :: p) [] = false := by
  simp [glob_match_bytes, h1]

lemma glob_star_all (t : List Char) : glob_match_bytes ['*'] t = true := by
  simp only [glob_match_bytes, List.any_eq_true]
  exact ⟨[], (List.mem_tails _ _).mpr ⟨t, by simp⟩, rfl⟩

lemma glob_sound : ∀ p t : List Char, glob_match_bytes p t = true → GMatch p t := by
  intro p
  induction p with
  | nil =>
    intro t h
    cases t with
    | nil => exact GMatch.nil
    | cons b t => simp [glob_nil_cons] at h
  | cons c p ih =>
    intro t h
    by_cases hc : c = '*'
    · subst hc
      have h' : ∃ suf ∈ t.tails, glob_match_bytes p suf = true := by
        simpa [glob_match_bytes, List.any_eq_true] using h
      obtain ⟨suf, hmem, hsuf⟩ := h'
      obtain ⟨pre, hpre⟩ := (List.mem_tails suf t).mp hmem
      rw [← hpre]
      exact GMatch.star pre suf (ih suf hsuf)
    · by_cases hq : c = '?'
      · subst hq
        cases t with
        | nil => simp [glob_lit_nil _ hc] at h
        | cons b t =>
          rw [glob_q_cons] at h
          exact GMatch.one (ih t h)
      · cases t with
        | nil => simp [glob_lit_nil _ hc] at h
        | cons b t =>
          rw [glob_lit_cons _ _ _ hc hq] at h
          have hcb : c = b := eq_of_beq ((Bool.and_eq_true _ _).mp h).1
          have hg : glob_match_bytes p t = true := ((Bool.and_eq_true _ _).mp h).2
          subst hcb
          exact GMatch.lit hc hq (ih t hg)

lemma glob_complete : ∀ {p t : List Char}, GMatch p t → glob_match_bytes p t = true := by
  intro p t h
  induction h with
  | nil => rfl
  | star t₁ t₂ _ ih =>
    simp only [glob_match_bytes, List.any_eq_true]
    exact ⟨t₂, (List.mem_tails _ _).mpr ⟨t₁, rfl⟩, ih⟩
  | one _ ih => simpa [glob_q_cons] using ih
  | lit hc hq _ ih => simp [glob_lit_cons _ _ _ hc hq, ih]

lemma glob_iff (p t : List Char) : glob_match_bytes p t = true ↔ GMatch p t :=
  ⟨glob_sound p t, glob_complete⟩

/-- C3: glob matching lowercases both inputs and then matches them under
the token semantics in which `*` matches zero or more characters, `?`
matches exactly one character, and any other character matches only itself;
in particular the universal `*` pattern accepts every string including the
empty one, `a?c` accepts `abc` but not `ac`, and matching is
case-insensitive (`A*` accepts `apple`). -/
theorem glob_match_spec :
    (∀ pattern text : String,
      glob_match pattern text = true ↔
        GMatch (pattern.toList.map Char.toLower) (text.toList.map Char.toLower)) ∧
    (∀ s : String, glob_match "*" s = true) ∧
    glob_match "a?c" "abc" = true ∧
    glob_match "a?c" "ac" = false ∧
    glob_match "A*" "apple" = true := by
  refine ⟨fun pattern text => glob_iff _ _, fun s => ?_, by decide, by decide, by decide⟩
  show glob_match_bytes ['*'] (s.toList.map Char.toLower) = true
  exact glob_star_all _

lemma glob_fuel_star (n : Nat) (p t : List Char) :
    glob_match_fuel (n + 1) ('*' :: p) t =
      (match glob_match_fuel n p t with
        | none => none
        | some true => some true
        | some false =>
            match t with
            | [] => some false
            | _ :: t' => glob_match_fuel n ('*' :: p) t') := by
  cases t <;> simp [glob_match_fuel]

lemma glob_fuel_q_cons (n : Nat) (p : List Char) (b : Char) (t : List Char) :
    glob_match_fuel (n + 1) ('?' :: p) (b :: t) = glob_match_fuel n p t := by
  simp [glob_match_fuel]

lemma glob_fuel_cons_nil (n : Nat) {a : Char} (p : List Char) (h1 : a ≠ '*') :
    glob_match_fuel (n + 1) (a :: p) [] = some false := by
  simp [glob_match_fuel, h1]

lemma glob_fuel_lit_cons (n : Nat) {a : Char} (p : List Char) (b : Char) (t : List Char)
    (h1 : a ≠ '*') (h2 : a ≠ '?') :
    glob_match_fuel (n + 1) (a :: p) (b :: t) =
      (if a == b then glob_match_fuel n p t else some false) := by
  simp [glob_match_fuel, h1, h2]

lemma glob_fuel_correct :
    ∀ n p t, p.length + t.length < n →
      glob_match_fuel n p t = some (glob_match_bytes p t) := by
  intro n
  induction n with
  | zero => intro p t h; omega
  | succ n ih =>
    intro p t h
    cases p with
    | nil =>
      cases t with
      | nil => rfl
      | cons b t => rfl
    | cons c p =>
      by_cases hc : c = '*'
      · subst hc
        have h1 : p.length + t.length < n := by
          simp only [List.length_cons] at h; omega
        rw [glob_fuel_star, ih p t h1]
        cases hb : glob_match_bytes p t with
        | true => rw [glob_star_eq, hb]; rfl
        | false =>
          cases t with
          | nil => rw [glob_star_eq, hb]; rfl
          | cons d t' =>
            have h2 : ('*' :: p).length + t'.length < n := by
              simp only [List.length_cons] at h ⊢; omega
            show glob_match_fuel n ('*' :: p) t' = _
            rw [ih _ _ h2]
            conv_rhs => rw [glob_star_eq]
            rw [hb]
            simp
      · by_cases hq : c = '?'
        · subst hq
          cases t with
          | nil => rw [glob_fuel_cons_nil n p hc, glob_lit_nil p hc]
          | cons b t =>
            have h1 : p.length + t.length < n := by
              simp only [List.length_cons] at h; omega
            rw [glob_fuel_q_cons, ih p t h1, glob_q_cons]
        · cases t with
          | nil => rw [glob_fuel_cons_nil n p hc, glob_lit_nil p hc]
          | cons b t =>
            have h1 : p.length + t.length < n := by
              simp only [List.length_cons] at h; omega
            rw [glob_fuel_lit_cons n p b t hc hq, glob_lit_cons p b t hc hq]
            cases hab : (c == b) with
            | true => simp [ih p t h1]
            | false => simp

/-- C8: glob matching is total.  The fuel-indexed transcription of the
source recursion terminates within `length pattern + length text + 1` steps
on every finite input (it never exhausts its fuel), and its value is the
boolean computed by the total matcher `glob_match_bytes`. -/
theorem glob_match_bytes_total (p t : List Char) :
    glob_match_fuel (p.length + t.length + 1) p t = some (glob_match_bytes p t) :=
  glob_fuel_correct _ p t (by omega)

/-- C2: the outcome of `backup_repo` is governed by destination-path
existence.  When the destination path already exists the status is Updated
or Failed (never Cloned); when it does not exist the status is Cloned or
Failed (never Updated). -/
theorem backup_repo_exists_dichotomy (env : Env) (repo : Repo) (dest : List String)
    (mirror : Bool) :
    (backup_repo env repo dest mirror).status ∈
      (if env.pathExists (repo_dir repo dest) then [Status.Updated, Status.Failed]
       else [Status.Cloned, Status.Failed]) := by
  cases hex : env.pathExists (repo_dir repo dest) with
  | false =>
    cases hc : runCommand env.exec
        (clone_cmd repo.name_with_owner (pathDisplay (repo_dir repo dest)) mirror) with
    | ok v => simp [backup_repo, hex, hc, Except.map]
    | error e => simp [backup_repo, hex, hc, Except.map]
  | true =>
    cases hc : runCommand env.exec
        (update_cmd (pathDisplay (repo_dir repo dest)) mirror) with
    | ok v => simp [backup_repo, hex, hc, Except.map]
    | error e => simp [backup_repo, hex, hc, Except.map]

/-- C5 counterexample: a clone action that fails with standard error
"fatal: boom\nmore detail" produces a report whose diagnostic line is the
command-failed header naming the executed command, not the first line
"fatal: boom" of the captured standard-error text.  This refutes the claim
that the report shows the first line of the standard-error text. -/
theorem backup_repo_report_not_stderr_first_line :
    (backup_repo envC5 repoW ["root"] false).status = .Failed ∧
    reportPair (backup_repo envC5 repoW ["root"] false) =
      ("o/r", some "command failed: gh repo clone o/r root/o/r --") ∧
    (rust_lines "fatal: boom\nmore detail").head? = some "fatal: boom" ∧
    reportPair (backup_repo envC5 repoW ["root"] false) ≠
      ("o/r", some "fatal: boom") := by
  refine ⟨?_, ?_, ?_, ?_⟩ <;> decide

/-- C5 amended: for every target whose external clone or update action
fails (nonzero exit), the recorded Failed outcome carries the full
diagnostic text built by the command wrapper — a "command failed" header
naming the executed command, followed on the next lines by the trimmed
captured standard-error text — and the user-visible report shows the
target's qualified identifier together with the first line of that
diagnostic text (the command header), not the first line of the
standard-error text. -/
theorem backup_repo_failure_report (env : Env) (repo : Repo) (dest : List String)
    (mirror : Bool) (sout serr : String)
    (hx : env.exec (backupCmd env repo dest mirror) = some ⟨false, sout, serr⟩) :
    (backup_repo env repo dest mirror).nwo = repo.name_with_owner ∧
    (backup_repo env repo dest mirror).status = .Failed ∧
    (backup_repo env repo dest mirror).error =
      some (cmdFailedMsg (backupCmd env repo dest mirror) serr) ∧
    cmdFailedMsg (backupCmd env repo dest mirror) serr =
      "command failed: " ++ joinSep " " (backupCmd env repo dest mirror) ++
        "\n" ++ rustTrim serr ∧
    reportPair (backup_repo env repo dest mirror) =
      (repo.name_with_owner,
        (rust_lines (cmdFailedMsg (backupCmd env repo dest mirror) serr)).head?) := by
  cases hex : env.pathExists (repo_dir repo dest) with
  | false =>
    rw [backupCmd, hex] at hx
    simp only [Bool.false_eq_true, if_false] at hx
    refine ⟨?_, ?_, ?_, rfl, ?_⟩ <;>
      simp [backup_repo, reportPair, backupCmd, hex, runCommand, hx, Except.map, cmdFailedMsg]
  | true =>
    rw [backupCmd, hex] at hx
    simp only [if_true] at hx
    refine ⟨?_, ?_, ?_, rfl, ?_⟩ <;>
      simp [backup_repo, reportPair, backupCmd, hex, runCommand, hx, Except.map, cmdFailedMsg]

/-- C5 witness: the amended failure-report theorem instantiated at a
concrete failing clone. -/
theorem backup_repo_failure_report_witness :
    (backup_repo envC5 repoW ["root"] false).nwo = repoW.name_with_owner ∧
    (backup_repo envC5 repoW ["root"] false).status = .Failed ∧
    (backup_repo envC5 repoW ["root"] false).error =
      some (cmdFailedMsg (backupCmd envC5 repoW ["root"] false) "fatal: boom\nmore detail") ∧
    cmdFailedMsg (backupCmd envC5 repoW ["root"] false) "fatal: boom\nmore detail" =
      "command failed: " ++ joinSep " " (backupCmd envC5 repoW ["root"] false) ++
        "\n" ++ rustTrim "fatal: boom\nmore detail" ∧
    reportPair (backup_repo envC5 repoW ["root"] false) =
      (repoW.name_with_owner,
        (rust_lines
          (cmdFailedMsg (backupCmd envC5 repoW ["root"] false) "fatal: boom\nmore detail")).head?) :=
  backup_repo_failure_report envC5 repoW ["root"] false "" "fatal: boom\nmore detail" rfl

lemma list_decomp {α : Type} :
    ∀ (l : List α) (w : Nat) (a : α), l[w]? = some a →
      ∃ T D, l = T ++ a :: D ∧ ∀ b, l.set w b = T ++ b :: D := by
  intro l
  induction l with
  | nil => intro w a h; simp at h
  | cons x xs ih =>
    intro w a h
    cases w with
    | zero =>
      simp at h
      subst h
      exact ⟨[], xs, by simp, fun b => by simp⟩
    | succ w =>
      simp at h
      obtain ⟨T, D, h1, h2⟩ := ih w a h
      refine ⟨x :: T, D, by simp [h1], fun b => ?_⟩
      simp [List.set, h2 b]

lemma claimedList_append (l₁ l₂ : List WPhase) :
    claimedList (l₁ ++ l₂) = claimedList l₁ ++ claimedList l₂ := by
  simp [claimedList, List.filterMap_append]

lemma doneCount_append (l₁ l₂ : List WPhase) :
    doneCount (l₁ ++ l₂) = doneCount l₁ + doneCount l₂ := by
  simp [doneCount, List.countP_append]

lemma doneCount_cons_running (l : List WPhase) :
    doneCount (.running :: l) = doneCount l := by
  simp [doneCount, List.countP_cons, isDone]

lemma doneCount_cons_claimed (k : Nat) (l : List WPhase) :
    doneCount (.claimed k :: l) = doneCount l := by
  simp [doneCount, List.countP_cons, isDone]

lemma doneCount_cons_done (l : List WPhase) :
    doneCount (.done :: l) = doneCount l + 1 := by
  simp [doneCount, List.countP_cons, isDone]

lemma inv_init (total jobs : Nat) : Inv total jobs (initSched jobs) := by
  have h1 : claimedList (List.replicate jobs .running) = [] := by
    simp [claimedList, List.filterMap_eq_nil_iff, claimedOf]
  have h2 : doneCount (List.replicate jobs .running) = 0 := by
    simp [doneCount, List.countP_eq_zero, isDone]
  refine ⟨by simp [initSched], ?_, ?_⟩
  · simp [initSched, h1]
  · simp [initSched, h2]

lemma inv_preserved {total jobs : Nat} {s s' : Sched}
    (hinv : Inv total jobs s) (hstep : SchedStep total s s') :
    Inv total jobs s' := by
  obtain ⟨hlen, hms, hcnt⟩ := hinv
  cases hstep with
  | @claim w hw h =>
    obtain ⟨T, D, hdec, hset⟩ := list_decomp s.workers w .running hw
    have hmin : min s.nextIdx total = s.nextIdx := by omega
    have hmin' : min (s.nextIdx + 1) total = s.nextIdx + 1 := by omega
    refine ⟨?_, ?_, ?_⟩
    · dsimp only
      rw [List.length_set]
      exact hlen
    · dsimp only
      rw [hset (.claimed s.nextIdx)]
      rw [hdec] at hms
      rw [hmin] at hms
      rw [claimedList_append] at hms ⊢
      simp only [claimedList, List.filterMap_cons, claimedOf] at hms ⊢
      rw [hmin', List.range_succ]
      simp only [← Multiset.coe_add, ← Multiset.cons_coe, ← Multiset.singleton_add,
        Multiset.coe_singleton, Multiset.coe_nil, add_zero] at hms ⊢
      rw [← hms]
      abel
    · dsimp only
      rw [hset (.claimed s.nextIdx)]
      rw [hdec] at hcnt
      rw [hmin] at hcnt
      rw [hmin', doneCount_append, doneCount_cons_claimed]
      rw [doneCount_append, doneCount_cons_running] at hcnt
      omega
  | @exit w hw h =>
    obtain ⟨T, D, hdec, hset⟩ := list_decomp s.workers w .running hw
    have hmin : min s.nextIdx total = total := by omega
    have hmin' : min (s.nextIdx + 1) total = total := by omega
    refine ⟨?_, ?_, ?_⟩
    · dsimp only
      rw [List.length_set]
      exact hlen
    · dsimp only
      rw [hset .done]
      rw [hdec] at hms
      rw [hmin] at hms
      rw [claimedList_append] at hms ⊢
      simp only [claimedList, List.filterMap_cons, claimedOf] at hms ⊢
      rw [hmin']
      exact hms
    · dsimp only
      rw [hset .done]
      rw [hdec] at hcnt
      rw [hmin] at hcnt
      rw [hmin', doneCount_append, doneCount_cons_done]
      rw [doneCount_append, doneCount_cons_running] at hcnt
      omega
  | @record w k hw =>
    obtain ⟨T, D, hdec, hset⟩ := list_decomp s.workers w (.claimed k) hw
    refine ⟨?_, ?_, ?_⟩
    · dsimp only
      rw [List.length_set]
      exact hlen
    · dsimp only
      rw [hset .running]
      rw [hdec] at hms
      rw [claimedList_append] at hms ⊢
      simp only [claimedList, List.filterMap_cons, claimedOf] at hms ⊢
      simp only [← Multiset.coe_add, ← Multiset.cons_coe, ← Multiset.singleton_add,
        Multiset.coe_singleton, Multiset.coe_nil, add_zero] at hms ⊢
      rw [← hms]
      abel
    · dsimp only
      rw [hset .running]
      rw [hdec] at hcnt
      rw [doneCount_append, doneCount_cons_running]
      rw [doneCount_append, doneCount_cons_claimed] at hcnt
      omega

lemma inv_steps {total jobs : Nat} {s s' : Sched}
    (hinv : Inv total jobs s) (hsteps : SchedSteps total s s') :
    Inv total jobs s' := by
  induction hsteps with
  | refl => exact hinv
  | tail _ hstep ih => exact inv_preserved ih hstep

lemma final_log_perm {total jobs : Nat} (hjobs : 1 ≤ jobs) {s : Sched}
    (hsteps : SchedSteps total (initSched jobs) s) (hdone : s.allDone) :
    s.log.Perm (List.range total) := by
  obtain ⟨hlen, hms, hcnt⟩ := inv_steps (inv_init total jobs) hsteps
  have hcl : claimedList s.workers = [] := by
    simp only [claimedList]
    rw [List.filterMap_eq_nil_iff]
    intro w hw
    rw [hdone w hw]
    rfl
  have hdc : doneCount s.workers = s.workers.length := by
    simp only [doneCount]
    rw [List.countP_eq_length]
    intro w hw
    rw [hdone w hw]
    rfl
  have hmin : min s.nextIdx total = total := by omega
  rw [hcl, hmin] at hms
  simp only [List.append_nil] at hms
  exact Multiset.coe_eq_coe.mp hms

lemma countStatus_sum (rs : List BackupResult) :
    countStatus rs .Cloned + countStatus rs .Updated + countStatus rs .Failed = rs.length := by
  induction rs with
  | nil => rfl
  | cons r rs ih =>
    cases hr : r.status <;>
      simp only [countStatus, List.filter_cons, hr, List.length_cons] at ih ⊢ <;>
      simp <;> omega

/-- C1: in every completed run of the `run_backup` scheduler on `N` targets
with at least one worker, the shared progress log records exactly `N` job
outcomes — the claimed indices are a permutation of `0 .. N-1`, so each
target's index is processed exactly once — and the summary counts satisfy
Cloned + Updated + Failed = N. -/
theorem run_backup_outcome_counts (env : Env) (repos : List Repo) (dest : List String)
    (mirror : Bool) (jobs : Nat) (hjobs : 1 ≤ jobs) (s : Sched)
    (hrun : SchedSteps repos.length (initSched jobs) s) (hdone : s.allDone) :
    s.log.Perm (List.range repos.length) ∧
    (∀ i, i < repos.length → s.log.count i = 1) ∧
    countStatus (s.log.map (jobOutcome env repos dest mirror)) .Cloned +
      countStatus (s.log.map (jobOutcome env repos dest mirror)) .Updated +
      countStatus (s.log.map (jobOutcome env repos dest mirror)) .Failed =
      repos.length := by
  have hperm := final_log_perm hjobs hrun hdone
  refine ⟨hperm, ?_, ?_⟩
  · intro i hi
    rw [hperm.count_eq]
    exact List.count_eq_one_of_mem (List.nodup_range _) (List.mem_range.mpr hi)
  · rw [countStatus_sum, List.length_map, hperm.length_eq, List.length_range]

/-- C1 witness: a complete one-worker execution on the single target
`repoW`, obtained by chaining one claim, one record and one exit step. -/
theorem run_backup_outcome_counts_witness :
    (Sched.mk 2 [0] [.done]).log.Perm (List.range ([repoW] : List Repo).length) ∧
    (Sched.mk 2 [0] [.done]).log.count 0 = 1 ∧
    countStatus ((Sched.mk 2 [0] [.done]).log.map (jobOutcome envW [repoW] ["backup"] true))
        .Cloned +
      countStatus ((Sched.mk 2 [0] [.done]).log.map (jobOutcome envW [repoW] ["backup"] true))
        .Updated +
      countStatus ((Sched.mk 2 [0] [.done]).log.map (jobOutcome envW [repoW] ["backup"] true))
        .Failed = ([repoW] : List Repo).length := by
  have hsteps : SchedSteps 1 (initSched 1) (Sched.mk 2 [0] [.done]) :=
    Relation.ReflTransGen.head (SchedStep.claim (w := 0) rfl (by decide))
      (Relation.ReflTransGen.head (SchedStep.record (w := 0) rfl)
        (Relation.ReflTransGen.single (SchedStep.exit (w := 0) rfl (by decide))))
  have hdone : (Sched.mk 2 [0] [.done]).allDone := by
    intro w hw
    rw [List.mem_singleton] at hw
    exact hw
  have T := run_backup_outcome_counts envW [repoW] ["backup"] true 1 (by decide)
    (Sched.mk 2 [0] [.done]) hsteps hdone
  exact ⟨T.1, T.2.1 0 (by decide), T.2.2⟩

lemma run_backup_exitCode_eq_one (rs : List BackupResult) :
    run_backup_exitCode rs = 1 ↔ ∃ r ∈ rs, r.status = .Failed := by
  constructor
  · intro h
    by_cases hf : (rs.filter fun r => decide (r.status = .Failed)).isEmpty = true
    · exfalso
      rw [run_backup_exitCode, hf] at h
      simp at h
    · have hne : rs.filter (fun r => decide (r.status = .Failed)) ≠ [] :=
        fun hnil => hf (by simp [hnil])
      obtain ⟨r, hr⟩ := List.exists_mem_of_ne_nil _ hne
      have hm := List.mem_filter.mp hr
      exact ⟨r, hm.1, by simpa using hm.2⟩
  · rintro ⟨r, hr, hst⟩
    have hmem : r ∈ rs.filter fun r => decide (r.status = .Failed) :=
      List.mem_filter.mpr ⟨hr, by simp [hst]⟩
    have hf : (rs.filter fun r => decide (r.status = .Failed)).isEmpty = false := by
      cases hh : (rs.filter fun r => decide (r.status = .Failed)).isEmpty
      · rfl
      · rw [List.isEmpty_iff.mp hh] at hmem
        cases hmem
    rw [run_backup_exitCode, hf]
    rfl

/-- C4: the exit decision of `run_backup` is taken only after every job has
been recorded (the log of a completed run holds all `N` outcomes), and the
terminal status is nonzero exactly when at least one target's outcome is
Failed; a run in which every target succeeded exits with status 0. -/
theorem run_backup_exit_condition (env : Env) (repos : List Repo) (dest : List String)
    (mirror : Bool) (jobs : Nat) (hjobs : 1 ≤ jobs) (s : Sched)
    (hrun : SchedSteps repos.length (initSched jobs) s) (hdone : s.allDone) :
    (s.log.map (jobOutcome env repos dest mirror)).length = repos.length ∧
    (run_backup_exitCode (s.log.map (jobOutcome env repos dest mirror)) = 1 ↔
      ∃ i, i < repos.length ∧ (jobOutcome env repos dest mirror i).status = .Failed) ∧
    ((∀ i, i < repos.length → (jobOutcome env repos dest mirror i).status ≠ .Failed) →
      run_backup_exitCode (s.log.map (jobOutcome env repos dest mirror)) = 0) := by
  have hperm := final_log_perm hjobs hrun hdone
  have hkey : (∃ r ∈ s.log.map (jobOutcome env repos dest mirror), r.status = .Failed) ↔
      ∃ i, i < repos.length ∧ (jobOutcome env repos dest mirror i).status = .Failed := by
    constructor
    · rintro ⟨r, hr, hst⟩
      obtain ⟨i, hi, rfl⟩ := List.mem_map.mp hr
      exact ⟨i, List.mem_range.mp (hperm.mem_iff.mp hi), hst⟩
    · rintro ⟨i, hi, hst⟩
      exact ⟨_, List.mem_map_of_mem _ (hperm.mem_iff.mpr (List.mem_range.mpr hi)), hst⟩
  have hiff := (run_backup_exitCode_eq_one (s.log.map (jobOutcome env repos dest mirror))).trans hkey
  refine ⟨by rw [List.length_map, hperm.length_eq, List.length_range], hiff, ?_⟩
  intro hall
  have h01 : run_backup_exitCode (s.log.map (jobOutcome env repos dest mirror)) = 0 ∨
      run_backup_exitCode (s.log.map (jobOutcome env repos dest mirror)) = 1 := by
    rw [run_backup_exitCode]
    cases (List.filter (fun r => decide (r.status = .Failed))
        (s.log.map (jobOutcome env repos dest mirror))).isEmpty <;> simp
  rcases h01 with h0 | h1
  · exact h0
  · obtain ⟨i, hi, hst⟩ := hiff.mp h1
    exact absurd hst (hall i hi)

/-- C4 witness: the exit-condition theorem instantiated at the completed
one-worker execution on a single always-succeeding target; the run exits 0. -/
theorem run_backup_exit_condition_witness :
    ((Sched.mk 2 [0] [.done]).log.map (jobOutcome envW [repoW] ["backup"] true)).length =
      ([repoW] : List Repo).length ∧
    run_backup_exitCode
      ((Sched.mk 2 [0] [.done]).log.map (jobOutcome envW [repoW] ["backup"] true)) = 0 := by
  have hsteps : SchedSteps 1 (initSched 1) (Sched.mk 2 [0] [.done]) :=
    Relation.ReflTransGen.head (SchedStep.claim (w := 0) rfl (by decide))
      (Relation.ReflTransGen.head (SchedStep.record (w := 0) rfl)
        (Relation.ReflTransGen.single (SchedStep.exit (w := 0) rfl (by decide))))
  have hdone : (Sched.mk 2 [0] [.done]).allDone := by
    intro w hw
    rw [List.mem_singleton] at hw
    exact hw
  have T := run_backup_exit_condition envW [repoW] ["backup"] true 1 (by decide)
    (Sched.mk 2 [0] [.done]) hsteps hdone
  exact ⟨T.1, T.2.2 (by decide)⟩

/-- C6: when an explicit owner allow-list is given and some owner fails the
case-insensitive membership test against the known organisations,
`discover_repos` fails with the error message carrying exactly the
offending names and the full known-organisation list — and it does so for
every repository-listing collaborator, i.e. without fetching any
repositories. -/
theorem discover_repos_unknown_owner (filters : Filters) (username : String)
    (orgs : List String) (h1 : filters.org ≠ [])
    (h2 : invalidOwners filters.org orgs ≠ []) :
    ∀ lr, discover_repos filters username orgs lr =
      .error (notMemberMsg (invalidOwners filters.org orgs) orgs) := by
  intro lr
  have e1 : filters.org.isEmpty = false := by
    cases hh : filters.org.isEmpty
    · rfl
    · exact absurd (List.isEmpty_iff.mp hh) h1
  have e2 : (invalidOwners filters.org orgs).isEmpty = false := by
    cases hh : (invalidOwners filters.org orgs).isEmpty
    · rfl
    · exact absurd (List.isEmpty_iff.mp hh) h2
  simp [discover_repos, resolveOwners, e1, e2]

/-- C6 witness: the unknown-owner theorem instantiated at the allow-list
`["X"]` against the organisation list `["Y"]`, with a collaborator that
would return no repositories. -/
theorem discover_repos_unknown_owner_witness :
    discover_repos filtersC6 "u" ["Y"] (fun _ => .ok []) =
      .error "not a member of org(s): X\nYour orgs: Y" :=
  discover_repos_unknown_owner filtersC6 "u" ["Y"] (by decide) (by decide) (fun _ => .ok [])

lemma lookupRepo_insertRepo (seen : List (String × Repo)) (r : Repo) (k : String) :
    lookupRepo (insertRepo seen r) k =
      (lookupRepo seen k).or (if r.name_with_owner == k then some r else none) := by
  by_cases hmem : (seen.any fun p => p.1 == r.name_with_owner) = true
  · rw [insertRepo, if_pos hmem]
    by_cases hk : r.name_with_owner = k
    · subst hk
      obtain ⟨p, hp, hpk⟩ := List.any_eq_true.mp hmem
      have hsome : (seen.find? fun p => p.1 == r.name_with_owner).isSome := by
        rw [List.find?_isSome]
        exact ⟨p, hp, hpk⟩
      obtain ⟨v, hv⟩ := Option.isSome_iff_exists.mp hsome
      simp [lookupRepo, hv]
    · have hbk : (r.name_with_owner == k) = false := by
        simp [hk]
      simp [hbk]
  · rw [insertRepo, if_neg hmem]
    rw [lookupRepo, List.find?_append]
    by_cases hk : r.name_with_owner = k
    · subst hk
      cases hf : seen.find? fun p => p.1 == r.name_with_owner with
      | none => simp [lookupRepo, hf, List.find?, Option.orElse]
      | some v =>
        have hvp := List.find?_some hf
        have hvm := List.mem_of_find?_eq_some hf
        exact absurd (List.any_eq_true.mpr ⟨v, hvm, hvp⟩) hmem
    · have hbk : (r.name_with_owner == k) = false := by simp [hk]
      cases hf : seen.find? fun p => p.1 == k with
      | none => simp [lookupRepo, hf, List.find?, hbk, Option.orElse]
      | some v => simp [lookupRepo, hf, Option.orElse]

lemma lookupRepo_foldl (rs : List Repo) :
    ∀ (seen : List (String × Repo)) (k : String),
      lookupRepo (rs.foldl insertRepo seen) k =
        (lookupRepo seen k).or (rs.find? fun r => r.name_with_owner == k) := by
  induction rs with
  | nil => intro seen k; simp
  | cons r rs ih =>
    intro seen k
    rw [List.foldl_cons, ih, lookupRepo_insertRepo, Option.or_assoc]
    congr 1
    rw [List.find?_cons]
    by_cases hk : r.name_with_owner = k
    · simp [hk]
    · have hbk : (r.name_with_owner == k) = false := by simp [hk]
      simp [hbk]

lemma keys_nodup_insertRepo (seen : List (String × Repo)) (r : Repo)
    (h : (seen.map Prod.fst).Nodup) : ((insertRepo seen r).map Prod.fst).Nodup := by
  by_cases hmem : (seen.any fun p => p.1 == r.name_with_owner) = true
  · rw [insertRepo, if_pos hmem]
    exact h
  · rw [insertRepo, if_neg hmem]
    rw [List.map_append, List.nodup_append]
    refine ⟨h, by simp, ?_⟩
    intro a ha
    simp only [List.map_cons, List.map_nil, List.mem_singleton]
    intro hcontra
    subst hcontra
    obtain ⟨p, hp, hpa⟩ := List.mem_map.mp ha
    exact hmem (List.any_eq_true.mpr ⟨p, hp, by simp [hpa]⟩)

lemma keys_nodup_foldl (rs : List Repo) :
    ∀ seen, ((seen.map Prod.fst).Nodup) →
      (((rs.foldl insertRepo seen).map Prod.fst).Nodup) := by
  induction rs with
  | nil => intro seen h; exact h
  | cons r rs ih =>
    intro seen h
    rw [List.foldl_cons]
    exact ih _ (keys_nodup_insertRepo seen r h)

lemma scanOwners_eq (lr : String → Except String (List Repo)) (f : String → List Repo) :
    ∀ (owners : List String) (seen : List (String × Repo)),
      (∀ o ∈ owners, lr o = .ok (f o)) →
      scanOwners lr owners seen = .ok ((owners.flatMap f).foldl insertRepo seen) := by
  intro owners
  induction owners with
  | nil => intro seen h; simp [scanOwners]
  | cons o os ih =>
    intro seen h
    have ho : lr o = .ok (f o) := h o (by simp)
    rw [scanOwners, ho]
    show scanOwners lr os (List.foldl insertRepo seen (f o)) = _
    rw [ih _ fun o' ho' => h o' (by simp [ho'])]
    rw [List.flatMap_cons, List.foldl_append]

/-- C7: the owner-scanning loop of `discover_repos` keeps exactly one
record per qualified identifier.  For any owner sequence whose listings
succeed, the seen map it builds is the first-seen-wins deduplication of the
concatenated listings (in owner-iteration order): its keys carry no
duplicates, and looking up any identifier returns exactly the first record
with that identifier in traversal order — later records with the same
identifier are discarded entirely, not merged. -/
theorem discover_repos_dedup_first_wins (owners : List String) (f : String → List Repo)
    (lr : String → Except String (List Repo))
    (h : ∀ o ∈ owners, lr o = .ok (f o)) :
    scanOwners lr owners [] = .ok (dedupFirst (owners.flatMap f)) ∧
    ((dedupFirst (owners.flatMap f)).map Prod.fst).Nodup ∧
    ∀ k, lookupRepo (dedupFirst (owners.flatMap f)) k =
      (owners.flatMap f).find? fun r => r.name_with_owner == k := by
  refine ⟨scanOwners_eq lr f owners [] h, keys_nodup_foldl _ [] (by simp), fun k => ?_⟩
  rw [dedupFirst, lookupRepo_foldl]
  simp [lookupRepo]

/-- C7 witness: two owners `alpha` and `beta` report records sharing the
identifier `x/q` but with different secondary fields; the scan keeps
exactly the record of `alpha`, the first seen. -/
theorem discover_repos_dedup_first_wins_witness :
    scanOwners lrW ["alpha", "beta"] [] = .ok [("x/q", r1W)] ∧
    lookupRepo (dedupFirst (["alpha", "beta"].flatMap fW)) "x/q" =
      (["alpha", "beta"].flatMap fW).find? (fun r => r.name_with_owner == "x/q") ∧
    lookupRepo [("x/q", r1W)] "x/q" = some r1W ∧ r1W ≠ r2W := by
  have T := discover_repos_dedup_first_wins ["alpha", "beta"] fW lrW (fun o _ => rfl)
  exact ⟨T.1, T.2.2 "x/q", by decide, by decide⟩

lemma split_once_chars_eq_none (sep : Char) :
    ∀ l : List Char, sep ∉ l → split_once_chars sep l = none := by
  intro l
  induction l with
  | nil => intro h; rfl
  | cons c rest ih =>
    intro h
    rw [split_once_chars]
    rw [if_neg (by intro hc; exact h (hc ▸ List.mem_cons_self c rest))]
    rw [ih fun hm => h (List.mem_cons_of_mem c hm)]

lemma bare_name_no_slash (s : String) (h : '/' ∉ s.toList) : bare_name s = "" := by
  rw [bare_name, split_once, split_once_chars_eq_none '/' s.toList h]
  rfl

lemma mem_includeStage (patterns : List String) (repos : List Repo) (r : Repo)
    (hp : patterns ≠ []) :
    r ∈ includeStage patterns repos ↔
      r ∈ repos ∧
        (patterns.any fun p => glob_match p (bare_name r.name_with_owner)) = true := by
  have e1 : patterns.isEmpty = false := by
    cases hh : patterns.isEmpty
    · rfl
    · exact absurd (List.isEmpty_iff.mp hh) hp
  rw [includeStage, e1]
  simp [List.mem_filter]

/-- C9: a repository whose qualified identifier contains no owner
separator `/` gets the empty string as its bare name in the glob stages of
`discover_repos`; consequently, under a non-empty include-pattern list such
a repository survives the include stage exactly when it was present and
some include pattern matches the empty string. -/
theorem discover_repos_no_separator_bare_name (r : Repo) (repos : List Repo)
    (patterns : List String) (hs : '/' ∉ r.name_with_owner.toList)
    (hp : patterns ≠ []) :
    bare_name r.name_with_owner = "" ∧
    (r ∈ includeStage patterns repos ↔
      r ∈ repos ∧ (patterns.any fun p => glob_match p "") = true) := by
  have hb := bare_name_no_slash _ hs
  refine ⟨hb, ?_⟩
  rw [mem_includeStage patterns repos r hp, hb]

/-- C9 witness: the repository `norepo` (no separator) is kept by the
include stage for the pattern list `["*"]`, whose sole pattern matches the
empty string. -/
theorem discover_repos_no_separator_bare_name_witness :
    bare_name rW9.name_with_owner = "" ∧
    (rW9 ∈ includeStage ["*"] [rW9] ↔
      rW9 ∈ [rW9] ∧ ((["*"].any fun p => glob_match p "") = true)) :=
  discover_repos_no_separator_bare_name rW9 [rW9] ["*"] (by decide) (by decide)

/-- C10: when discovery succeeds with an empty repository list (and the
preceding collaborator calls succeed, outside the list-orgs mode), the CLI
run function returns on the no-repos path: the overall result is `Ok`, so
the process exit status is 0, and the backup scheduler is never invoked —
in particular no destination directory is created and no job runs, since
those effects live behind the `backup` path alone. -/
theorem cli_run_empty_discovery (args : CliArgs) (c : Collab) (username : String)
    (orgs : List String)
    (h1 : c.check_gh = .ok ())
    (h2 : c.get_username = .ok username)
    (h3 : c.get_orgs = .ok orgs)
    (h4 : args.list_orgs = false)
    (h5 : discover_repos (mkFilters args) username orgs c.list_repos = .ok []) :
    cliRun args c = .ok .noRepos ∧
    mainExitCode (cliRun args c) = 0 ∧
    ∀ repos dest mirror jobs, cliRun args c ≠ .ok (.backup repos dest mirror jobs) := by
  have hrun : cliRun args c = .ok .noRepos := by
    rw [cliRun]
    rw [h1, h2, h3]
    show (if args.list_orgs then _ else _) = _
    rw [h4]
    simp only [Bool.false_eq_true, if_false]
    rw [h5]
    rfl
  refine ⟨hrun, by rw [hrun]; rfl, fun repos dest mirror jobs => by rw [hrun]; intro hc; cases hc⟩

/-- C10 witness: a user with no organisations and no repositories; the run
returns the no-repos result with exit status 0 and is not a backup
invocation. -/
theorem cli_run_empty_discovery_witness :
    cliRun emptyArgs emptyCollab = .ok .noRepos ∧
    mainExitCode (cliRun emptyArgs emptyCollab) = 0 ∧
    cliRun emptyArgs emptyCollab ≠ .ok (.backup [] ["backup"] true 4) := by
  have T := cli_run_empty_discovery emptyArgs emptyCollab "u" [] rfl rfl rfl rfl rfl
  exact ⟨T.1, T.2.1, T.2.2 [] ["backup"] true 4⟩

end Ghsync
